import Mathlib

/-!
Shallow embedding of the Go package `trie` (file `rune_trie.go`), a trie of
runes with string keys and `interface{}` values, together with proofs about
its operations.

Modelling conventions:
- A Go `rune` (a Unicode codepoint) is a `Nat`.
- A Go string key is given to Get/Put/Delete/WalkPath as the list of runes
  produced by `range key`; where the Go code manipulates the underlying
  byte representation (byte indices in Delete's ancestor array, the byte
  slice `key[0:i+1]` in WalkPath, `key + string(r)` in walk), the model
  computes the byte positions via the UTF-8 encoded length of each rune.
- A Go `interface{}` value is `Option V`: `none` is the `nil` interface,
  `some v` a non-nil value.  A node's `Value` field is likewise `Option V`
  (`none` = Go `nil`).
- The Go `map[rune]*RuneTrie` is an association list `List (Nat × RuneTrie V)`;
  Go guarantees the keys are distinct, which the predicate `wf` records.
- A Go runtime panic (nil-map-owner dereference in Delete's pruning loop) is
  modelled by `Option`: `Delete` returns `none` exactly when the Go code
  panics, `some (b, t)` when it returns `b` leaving the tree in state `t`.
- Walk/WalkPath visitors (`WalkFunc`) are functions `List Nat → V → Option E`
  over the byte string of the accumulated key; `some e` models returning a
  non-nil `error`, `none` a nil error.
-/

set_option maxHeartbeats 1000000

namespace Spec2Proof

/-- The `RuneTrie` node: `Value interface{}` and `Children map[rune]*RuneTrie`.
A `nil` child map and an empty child map are behaviourally identical in the
source, so both are the empty list. -/
inductive RuneTrie (V : Type) : Type where
  | mk (value : Option V) (children : List (Nat × RuneTrie V)) : RuneTrie V

namespace RuneTrie

variable {V : Type}

/-- The `Value` field of a node. -/
def value : RuneTrie V → Option V
  | .mk v _ => v

/-- The `Children` field of a node, as an association list. -/
def children : RuneTrie V → List (Nat × RuneTrie V)
  | .mk _ cs => cs

@[simp] theorem value_mk (v : Option V) (cs : List (Nat × RuneTrie V)) :
    (RuneTrie.mk v cs).value = v := rfl

@[simp] theorem children_mk (v : Option V) (cs : List (Nat × RuneTrie V)) :
    (RuneTrie.mk v cs).children = cs := rfl

/-- Go map read `m[r]` (comma-ok form): the entry for key `r`, if any. -/
def assocGet (cs : List (Nat × RuneTrie V)) (r : Nat) : Option (RuneTrie V) :=
  match cs with
  | [] => none
  | (a, c) :: rest => if a = r then some c else assocGet rest r

/-- Go map write `m[r] = c`: replace the entry for `r`, or add one. -/
def assocPut (cs : List (Nat × RuneTrie V)) (r : Nat) (c : RuneTrie V) :
    List (Nat × RuneTrie V) :=
  match cs with
  | [] => [(r, c)]
  | (a, b) :: rest => if a = r then (a, c) :: rest else (a, b) :: assocPut rest r c

/-- Go `delete(m, r)`: remove the entry for key `r` (a Go map holds at most
one entry per key; removing every matching entry agrees with that on every
well-formed map and keeps the model total). -/
def assocDel (cs : List (Nat × RuneTrie V)) (r : Nat) : List (Nat × RuneTrie V) :=
  cs.filter (fun p => p.1 != r)

/-- `NewRuneTrie` allocates a zero-valued node: nil `Value`, nil `Children`. -/
def NewRuneTrie : RuneTrie V := .mk none []

/-- `isLeaf` reports `len(trie.Children) == 0`. -/
def isLeaf (t : RuneTrie V) : Bool := t.children.isEmpty

/-- `Get` walks the child edges along the key's runes, returning `nil` as soon
as an edge is missing, and otherwise the final node's `Value`. -/
def Get (t : RuneTrie V) : List Nat → Option V
  | [] => t.value
  | r :: rs =>
    match assocGet t.children r with
    | none => none
    | some c => Get c rs

/-- `Put` walks the key's runes, creating a zero-valued child node for every
missing edge, then records whether the final node's `Value` was `nil` and
overwrites it unconditionally.  Returns `(isNewVal, updated tree)`. -/
def Put (t : RuneTrie V) : List Nat → Option V → Bool × RuneTrie V
  | [], v => (t.value.isNone, .mk v t.children)
  | r :: rs, v =>
    let child := (assocGet t.children r).getD (.mk none [])
    let res := Put child rs v
    (res.1, .mk t.value (assocPut t.children r res.2))

/-- Number of bytes of the UTF-8 encoding of a rune; equals Go's
`utf8.RuneLen` on Unicode scalar values, which is also the amount by which
`range` advances the byte index past that rune. -/
def utf8Len (r : Nat) : Nat :=
  if r < 0x80 then 1 else if r < 0x800 then 2 else if r < 0x10000 then 3 else 4

/-- The UTF-8 encoding of a rune (a Unicode scalar value) as a byte list. -/
def encodeRune (r : Nat) : List Nat :=
  if r < 0x80 then [r]
  else if r < 0x800 then [0xC0 + r / 64, 0x80 + r % 64]
  else if r < 0x10000 then [0xE0 + r / 4096, 0x80 + r / 64 % 64, 0x80 + r % 64]
  else [0xF0 + r / 262144, 0x80 + r / 4096 % 64, 0x80 + r / 64 % 64, 0x80 + r % 64]

/-- The byte string underlying a Go string whose runes are `k`. -/
def encodeKey : List Nat → List Nat
  | [] => []
  | r :: rs => encodeRune r ++ encodeKey rs

/-- Outcome of the recursive reading of `Delete`'s two phases on a key suffix:
the key's path is broken (`notFound`), the pruning loop dereferenced a nil
ancestor recorded in a byte-index hole of `path` (`crashed`), or the subtree
was rewritten (`updated`), with `prune = true` when the node handed back is a
childless, valueless leaf whose parent must now remove its edge and continue
the backward loop. -/
inductive DelRes (V : Type) : Type where
  | notFound : DelRes V
  | crashed : DelRes V
  | updated (t : RuneTrie V) (prune : Bool) : DelRes V

/-- The body of `Delete` on a key suffix.  Descent phase: a missing edge
returns `notFound` (Go: return false, no mutation).  At the destination the
`Value` is nil'd unconditionally and pruning starts iff the node `isLeaf`.
The backward loop over `path` (sized `len(key)` in bytes but filled only at
rune-start indices by `range`) processes the recorded ancestors in reverse;
before it can process the ancestor that consumed rune `r` it steps through
the `utf8Len r - 1` trailing byte slots of `r`, which hold the zero value
`nodeRune{}` — dereferencing that nil node panics (`crashed`) whenever
`utf8Len r > 1`.  Otherwise the ancestor deletes the child edge, stops if
other children remain, clears its child map, and stops if it still holds a
value, else propagates the pruning. -/
def del (t : RuneTrie V) : List Nat → DelRes V
  | [] =>
    let t' : RuneTrie V := .mk none t.children
    .updated t' t'.isLeaf
  | r :: rs =>
    match assocGet t.children r with
    | none => .notFound
    | some child =>
      match del child rs with
      | .notFound => .notFound
      | .crashed => .crashed
      | .updated _ true =>
        if 1 < utf8Len r then .crashed
        else
          let ch' := assocDel t.children r
          if ch'.isEmpty then
            if t.value.isSome then .updated (.mk t.value []) false
            else .updated (.mk none []) true
          else .updated (.mk t.value ch') false
      | .updated c' false => .updated (.mk t.value (assocPut t.children r c')) false

/-- `Delete` removes the `Value` at the key and prunes newly childless,
valueless ancestors.  `some (b, t')` models a normal return of `b` with the
tree left in state `t'`; `none` models the nil-pointer runtime panic of the
pruning loop. -/
def Delete (t : RuneTrie V) (k : List Nat) : Option (Bool × RuneTrie V) :=
  match del t k with
  | .notFound => some (false, t)
  | .crashed => none
  | .updated t' _ => some (true, t')

/-- Whether a node is reachable via the key's rune path (the condition under
which `Delete`'s descent phase succeeds). -/
def hasNode (t : RuneTrie V) : List Nat → Bool
  | [] => true
  | r :: rs =>
    match assocGet t.children r with
    | none => false
    | some c => hasNode c rs

section Walks

variable {E : Type}

mutual

/-- The private `walk`: visit this node's value (key is the byte string of
the accumulated rune path), then recurse into each child with the child's
rune appended (`key + string(r)`), aborting on the first visitor error. -/
def walk (t : RuneTrie V) (key : List Nat) (f : List Nat → V → Option E) : Option E :=
  match t with
  | .mk v cs =>
    match v with
    | some x =>
      match f key x with
      | some e => some e
      | none => walkList cs key f
    | none => walkList cs key f

/-- The `range trie.Children` loop inside `walk` (list order stands in for
Go's unspecified map iteration order). -/
def walkList (cs : List (Nat × RuneTrie V)) (key : List Nat)
    (f : List Nat → V → Option E) : Option E :=
  match cs with
  | [] => none
  | (r, c) :: rest =>
    match walk c (key ++ encodeRune r) f with
    | some e => some e
    | none => walkList rest key f

end

/-- `Walk` starts the depth-first traversal at the root with the empty key. -/
def Walk (t : RuneTrie V) (f : List Nat → V → Option E) : Option E :=
  walk t [] f

mutual

/-- The exact sequence of `(key, value)` invocations `walk` delivers to a
visitor that keeps returning nil. -/
def walkVisits (t : RuneTrie V) (key : List Nat) : List (List Nat × V) :=
  match t with
  | .mk v cs =>
    (match v with
     | some x => [(key, x)]
     | none => []) ++ walkVisitsList cs key

/-- The visit sequence contributed by a children list. -/
def walkVisitsList (cs : List (Nat × RuneTrie V)) (key : List Nat) :
    List (List Nat × V) :=
  match cs with
  | [] => []
  | (r, c) :: rest => walkVisits c (key ++ encodeRune r) ++ walkVisitsList rest key

end

/-- The loop of `WalkPath`: descend along the key's runes (`bytes` is the byte
string of the full key, `pos` the byte index at which the current rune starts,
mirroring the `i` of `for i, r := range key`); a missing edge returns nil
cleanly; a node holding a value is reported with the byte slice `key[0:i+1]`
— one byte past the rune's start, NOT the full encoding of the rune. -/
def walkPathAux (t : RuneTrie V) (bytes : List Nat) (pos : Nat) (ks : List Nat)
    (f : List Nat → V → Option E) : Option E :=
  match ks with
  | [] => none
  | r :: rs =>
    match assocGet t.children r with
    | none => none
    | some child =>
      match child.value with
      | some x =>
        match f (bytes.take (pos + 1)) x with
        | some e => some e
        | none => walkPathAux child bytes (pos + utf8Len r) rs f
      | none => walkPathAux child bytes (pos + utf8Len r) rs f

/-- `WalkPath`: visit the root's value first (with the empty key), then every
value-holding node along the key's path, in root-to-leaf order. -/
def WalkPath (t : RuneTrie V) (k : List Nat) (f : List Nat → V → Option E) :
    Option E :=
  match t.value with
  | some x =>
    match f [] x with
    | some e => some e
    | none => walkPathAux t (encodeKey k) 0 k f
  | none => walkPathAux t (encodeKey k) 0 k f

/-- The `(key, value)` invocation sequence of `walkPathAux` for a visitor that
keeps returning nil. -/
def walkPathVisitsAux (t : RuneTrie V) (bytes : List Nat) (pos : Nat) :
    List Nat → List (List Nat × V)
  | [] => []
  | r :: rs =>
    match assocGet t.children r with
    | none => []
    | some child =>
      match child.value with
      | some x =>
        (bytes.take (pos + 1), x) :: walkPathVisitsAux child bytes (pos + utf8Len r) rs
      | none => walkPathVisitsAux child bytes (pos + utf8Len r) rs

/-- The full `(key, value)` invocation sequence of `WalkPath`. -/
def walkPathVisits (t : RuneTrie V) (k : List Nat) : List (List Nat × V) :=
  (match t.value with
   | some x => [([], x)]
   | none => []) ++ walkPathVisitsAux t (encodeKey k) 0 k

end Walks

mutual

/-- The stored entries of a trie as `(rune list, value)` pairs, keys relative
to this node, in the traversal order of the children list. -/
def entries (t : RuneTrie V) : List (List Nat × V) :=
  match t with
  | .mk v cs =>
    (match v with
     | some x => [([], x)]
     | none => []) ++ entriesList cs

/-- Entries contributed by a children list, each child's entries prefixed
with its edge rune. -/
def entriesList (cs : List (Nat × RuneTrie V)) : List (List Nat × V) :=
  match cs with
  | [] => []
  | (r, c) :: rest => (entries c).map (fun p => (r :: p.1, p.2)) ++ entriesList rest

end

mutual

/-- A node placed below the root satisfies the leaf invariant: it is not a
childless, valueless node, and neither is any of its descendants. -/
def live (t : RuneTrie V) : Bool :=
  match t with
  | .mk v cs => (v.isSome || !cs.isEmpty) && liveList cs

/-- All nodes of a children list satisfy the leaf invariant. -/
def liveList (cs : List (Nat × RuneTrie V)) : Bool :=
  match cs with
  | [] => true
  | (_, c) :: rest => live c && liveList rest

end

/-- Invariant I1: every childless node reachable from the root either holds a
value or is the root itself (the root is exempt, so only the strict subtrees
are constrained). -/
def I1 (t : RuneTrie V) : Bool := liveList t.children

/-- Whether a list of runes has no duplicates (Boolean form). -/
def nodupB : List Nat → Bool
  | [] => true
  | x :: xs => decide (x ∉ xs) && nodupB xs

mutual

/-- Well-formedness: every children association list has pairwise distinct
rune keys, as a Go `map[rune]*RuneTrie` guarantees by construction. -/
def wf (t : RuneTrie V) : Bool :=
  match t with
  | .mk _ cs => nodupB (cs.map Prod.fst) && wfList cs

/-- Well-formedness of every node of a children list. -/
def wfList (cs : List (Nat × RuneTrie V)) : Bool :=
  match cs with
  | [] => true
  | (_, c) :: rest => wf c && wfList rest

end

/-- A sample trie holding the entries a ↦ 1, ab ↦ 2, b ↦ 3, used to
instantiate hypotheses of the general theorems at a concrete state. -/
def sampleTrie : RuneTrie Nat :=
  (Put (Put (Put NewRuneTrie [97] (some 1)).2 [97, 98] (some 2)).2 [98] (some 3)).2

/-- Recursion principle for the nested inductive `RuneTrie`: to prove a
property of every node it suffices to prove it of a node given it for all
children. -/
def ind_on {V : Type} {P : RuneTrie V → Prop}
    (h : ∀ v cs, (∀ p ∈ cs, P p.2) → P (.mk v cs)) : ∀ t, P t
  | .mk v cs => h v cs (fun p hp => ind_on h p.2)
termination_by t => sizeOf t
decreasing_by
  have h1 := List.sizeOf_lt_of_mem hp
  obtain ⟨x, y⟩ := p
  simp at h1 ⊢
  omega

/-! ### Lemmas about the association-list children maps -/

theorem assocGet_assocPut_self (cs : List (Nat × RuneTrie V)) (r : Nat)
    (c : RuneTrie V) : assocGet (assocPut cs r c) r = some c := by
  induction cs with
  | nil => simp [assocPut, assocGet]
  | cons hd tl ih =>
    obtain ⟨a, b⟩ := hd
    by_cases h : a = r <;> simp [assocPut, assocGet, h, ih]

theorem assocGet_assocPut_ne (cs : List (Nat × RuneTrie V)) (r r' : Nat)
    (c : RuneTrie V) (h : r ≠ r') :
    assocGet (assocPut cs r c) r' = assocGet cs r' := by
  induction cs with
  | nil => simp [assocPut, assocGet, h]
  | cons hd tl ih =>
    obtain ⟨a, b⟩ := hd
    by_cases ha : a = r
    · subst ha
      simp [assocPut, assocGet, h, ih]
    · simp only [assocPut, if_neg ha]
      by_cases ha' : a = r' <;> simp [assocGet, ha', ih]

theorem assocGet_assocDel_self (cs : List (Nat × RuneTrie V)) (r : Nat) :
    assocGet (assocDel cs r) r = none := by
  induction cs with
  | nil => simp [assocDel, assocGet]
  | cons hd tl ih =>
    obtain ⟨a, b⟩ := hd
    by_cases h : a = r <;>
      simp only [assocDel, List.filter_cons] at ih ⊢ <;>
      simp [h, assocGet, ih]

theorem assocGet_mem (cs : List (Nat × RuneTrie V)) (r : Nat) (c : RuneTrie V)
    (h : assocGet cs r = some c) : (r, c) ∈ cs := by
  induction cs with
  | nil => simp [assocGet] at h
  | cons hd tl ih =>
    obtain ⟨a, b⟩ := hd
    by_cases ha : a = r
    · subst ha
      simp [assocGet] at h
      simp [h]
    · simp [assocGet, ha] at h
      simp [ih h]

theorem assocPut_isEmpty (cs : List (Nat × RuneTrie V)) (r : Nat)
    (c : RuneTrie V) : (assocPut cs r c).isEmpty = false := by
  cases cs with
  | nil => simp [assocPut]
  | cons hd tl =>
    obtain ⟨a, b⟩ := hd
    by_cases h : a = r <;> simp [assocPut, h]

/-! ### Lemmas about Get and Put -/

theorem Get_empty (k : List Nat) : Get (RuneTrie.mk (none : Option V) []) k = none := by
  cases k <;> simp [Get, assocGet]

theorem Get_Put_self (v : Option V) :
    ∀ (k : List Nat) (t : RuneTrie V), Get (Put t k v).2 k = v := by
  intro k
  induction k with
  | nil => intro t; simp [Put, Get]
  | cons r rs ih => intro t; simp [Put, Get, assocGet_assocPut_self, ih]

theorem Put_fst (v : Option V) :
    ∀ (k : List Nat) (t : RuneTrie V), (Put t k v).1 = (Get t k).isNone := by
  intro k
  induction k with
  | nil => intro t; simp [Put, Get]
  | cons r rs ih =>
    intro t
    cases h : assocGet t.children r with
    | none => simp [Put, Get, h, ih, Get_empty]
    | some c => simp [Put, Get, h, ih]

theorem Get_Put_ne (v : Option V) :
    ∀ (k k' : List Nat) (t : RuneTrie V), k' ≠ k →
      Get (Put t k v).2 k' = Get t k' := by
  intro k
  induction k with
  | nil =>
    intro k' t h
    cases k' with
    | nil => exact absurd rfl h
    | cons a as => simp [Put, Get]
  | cons r rs ih =>
    intro k' t h
    cases k' with
    | nil => simp [Put, Get]
    | cons a as =>
      by_cases ha : a = r
      · subst ha
        have has : as ≠ rs := fun he => h (by rw [he])
        cases hg : assocGet t.children a with
        | none =>
          simp only [Put, Get, hg, children_mk, assocGet_assocPut_self,
            Option.getD_none]
          rw [ih as (.mk none []) has, Get_empty]
        | some c =>
          simp only [Put, Get, hg, children_mk, assocGet_assocPut_self,
            Option.getD_some]
          exact ih as c has
      · have har : ¬ r = a := fun he => ha he.symm
        simp only [Put, Get, children_mk, assocGet_assocPut_ne _ _ _ _ har]

/-! ### Lemmas about Delete -/

theorem del_of_hasNode_false :
    ∀ (k : List Nat) (t : RuneTrie V), hasNode t k = false → del t k = .notFound := by
  intro k
  induction k with
  | nil => intro t h; simp [hasNode] at h
  | cons r rs ih =>
    intro t h
    cases hg : assocGet t.children r with
    | none => simp [del, hg]
    | some c =>
      simp only [hasNode, hg] at h
      simp [del, hg, ih c h]

theorem del_ne_notFound_of_hasNode :
    ∀ (k : List Nat) (t : RuneTrie V), hasNode t k = true → del t k ≠ .notFound := by
  intro k
  induction k with
  | nil => intro t h; simp [del]
  | cons r rs ih =>
    intro t h
    cases hg : assocGet t.children r with
    | none => simp [hasNode, hg] at h
    | some c =>
      simp only [hasNode, hg] at h
      have hc := ih c h
      cases hd : del c rs with
      | notFound => exact absurd hd hc
      | crashed => simp [del, hg, hd]
      | updated c' q =>
        cases q with
        | false => simp [del, hg, hd]
        | true =>
          simp only [del, hg, hd]
          split
          · simp
          · split
            · split <;> simp
            · simp

theorem del_ascii_ne_crashed :
    ∀ (k : List Nat) (t : RuneTrie V), (∀ r ∈ k, utf8Len r = 1) →
      del t k ≠ .crashed := by
  intro k
  induction k with
  | nil => intro t _; simp [del]
  | cons r rs ih =>
    intro t h
    have hr : utf8Len r = 1 := h r (by simp)
    have hrs : ∀ a ∈ rs, utf8Len a = 1 := fun a ha => h a (by simp [ha])
    cases hg : assocGet t.children r with
    | none => simp [del, hg]
    | some c =>
      have hc := ih c hrs
      simp only [del, hg]
      cases hd : del c rs with
      | notFound => simp
      | crashed => exact absurd hd hc
      | updated c' q =>
        cases q with
        | false => simp
        | true =>
          have hlt : ¬ 1 < utf8Len r := by rw [hr]; omega
          simp only [if_neg hlt]
          split
          · split <;> simp
          · simp

theorem Get_of_del_notFound :
    ∀ (k : List Nat) (t : RuneTrie V), del t k = .notFound → Get t k = none := by
  intro k
  induction k with
  | nil => intro t h; simp [del] at h
  | cons r rs ih =>
    intro t h
    cases hg : assocGet t.children r with
    | none => simp [Get, hg]
    | some c =>
      simp only [del, hg] at h
      cases hd : del c rs with
      | notFound => simp [Get, hg, ih c hd]
      | crashed => rw [hd] at h; simp at h
      | updated c' q =>
        rw [hd] at h
        cases q with
        | false => simp at h
        | true =>
          simp only at h
          split at h
          · simp at h
          · split at h
            · split at h <;> simp at h
            · simp at h

theorem Get_of_del_updated :
    ∀ (k : List Nat) (t t' : RuneTrie V) (p : Bool),
      del t k = .updated t' p → Get t' k = none := by
  intro k
  induction k with
  | nil =>
    intro t t' p h
    simp only [del] at h
    injection h with h1 h2
    rw [← h1]
    simp [Get]
  | cons r rs ih =>
    intro t t' p h
    cases hg : assocGet t.children r with
    | none => simp [del, hg] at h
    | some c =>
      simp only [del, hg] at h
      cases hd : del c rs with
      | notFound => rw [hd] at h; simp at h
      | crashed => rw [hd] at h; simp at h
      | updated c' q =>
        rw [hd] at h
        cases q with
        | false =>
          simp only at h
          injection h with h1 h2
          rw [← h1]
          simp only [Get, children_mk, assocGet_assocPut_self]
          exact ih c c' false hd
        | true =>
          simp only at h
          split at h
          · simp at h
          · split at h
            · split at h <;>
                (injection h with h1 h2; rw [← h1]; simp [Get, assocGet])
            · injection h with h1 h2
              rw [← h1]
              simp [Get, assocGet_assocDel_self]

/-! ### Lemmas about the leaf invariant I1 -/

theorem live_children (t : RuneTrie V) (h : live t = true) :
    liveList t.children = true := by
  cases t with
  | mk v cs =>
    simp only [live, Bool.and_eq_true] at h
    simpa using h.2

theorem liveList_assocGet :
    ∀ (cs : List (Nat × RuneTrie V)) (r : Nat) (c : RuneTrie V),
      liveList cs = true → assocGet cs r = some c → live c = true := by
  intro cs
  induction cs with
  | nil => intro r c _ h; simp [assocGet] at h
  | cons hd tl ih =>
    intro r c hl hg
    obtain ⟨a, b⟩ := hd
    simp only [liveList, Bool.and_eq_true] at hl
    by_cases h : a = r
    · simp only [assocGet, if_pos h] at hg
      injection hg with hg
      rw [← hg]
      exact hl.1
    · simp only [assocGet, if_neg h] at hg
      exact ih r c hl.2 hg

theorem liveList_assocPut :
    ∀ (cs : List (Nat × RuneTrie V)) (r : Nat) (c : RuneTrie V),
      liveList cs = true → live c = true → liveList (assocPut cs r c) = true := by
  intro cs
  induction cs with
  | nil => intro r c _ hc; simp [assocPut, liveList, hc]
  | cons hd tl ih =>
    intro r c hl hc
    obtain ⟨a, b⟩ := hd
    simp only [liveList, Bool.and_eq_true] at hl
    by_cases h : a = r
    · simp [assocPut, h, liveList, hc, hl.2]
    · simp [assocPut, h, liveList, hl.1, ih r c hl.2 hc]

theorem liveList_assocDel :
    ∀ (cs : List (Nat × RuneTrie V)) (r : Nat),
      liveList cs = true → liveList (assocDel cs r) = true := by
  intro cs
  induction cs with
  | nil => intro r _; simp [assocDel, liveList]
  | cons hd tl ih =>
    intro r hl
    obtain ⟨a, b⟩ := hd
    simp only [liveList, Bool.and_eq_true] at hl
    by_cases h : a = r <;>
      simp only [assocDel, List.filter_cons] at ih ⊢ <;>
      simp [h, liveList, hl.1, ih r hl.2]

theorem Put_live (v : V) :
    ∀ (k : List Nat) (t : RuneTrie V), liveList t.children = true →
      live (Put t k (some v)).2 = true := by
  intro k
  induction k with
  | nil => intro t h; simp [Put, live, h]
  | cons r rs ih =>
    intro t h
    have hchild : liveList ((assocGet t.children r).getD (.mk none [])).children = true := by
      cases hg : assocGet t.children r with
      | none => simp [liveList]
      | some c => simpa using live_children c (liveList_assocGet _ r c h hg)
    have hc' := ih _ hchild
    simp only [Put, live, children_mk, value_mk]
    rw [assocPut_isEmpty]
    simp [liveList_assocPut _ _ _ h hc']

theorem I1_Put (v : V) (t : RuneTrie V) (k : List Nat) (h : I1 t = true) :
    I1 (Put t k (some v)).2 = true := by
  cases k with
  | nil => simpa [Put, I1] using h
  | cons r rs =>
    have hchild : liveList ((assocGet t.children r).getD (.mk none [])).children = true := by
      cases hg : assocGet t.children r with
      | none => simp [liveList]
      | some c => simpa using live_children c (liveList_assocGet _ r c h hg)
    have hc' := Put_live v rs _ hchild
    simp only [Put, I1, children_mk]
    exact liveList_assocPut _ _ _ h hc'

theorem del_live :
    ∀ (k : List Nat) (t t' : RuneTrie V) (p : Bool),
      liveList t.children = true → del t k = .updated t' p →
      (p = true → t' = .mk none []) ∧ (p = false → live t' = true) := by
  intro k
  induction k with
  | nil =>
    intro t t' p h hd
    simp only [del] at hd
    injection hd with h1 h2
    cases hc : t.children.isEmpty with
    | true =>
      have : t.children = [] := by
        cases hcs : t.children
        · rfl
        · rw [hcs] at hc; simp at hc
      refine ⟨fun _ => ?_, fun hp => ?_⟩
      · rw [← h1, this]
      · rw [← h2, isLeaf, children_mk, hc] at hp
        simp at hp
    | false =>
      refine ⟨fun hp => ?_, fun _ => ?_⟩
      · rw [← h2, isLeaf, children_mk, hc] at hp
        simp at hp
      · rw [← h1]
        simp [live, hc, h]
  | cons r rs ih =>
    intro t t' p h hd
    cases hg : assocGet t.children r with
    | none => simp [del, hg] at hd
    | some c =>
      have hc : live c = true := liveList_assocGet _ r c h hg
      have hcc : liveList c.children = true := live_children c hc
      simp only [del, hg] at hd
      cases hdc : del c rs with
      | notFound => rw [hdc] at hd; simp at hd
      | crashed => rw [hdc] at hd; simp at hd
      | updated c' q =>
        rw [hdc] at hd
        cases q with
        | false =>
          have hl' := (ih c c' false hcc hdc).2 rfl
          simp only at hd
          injection hd with h1 h2
          refine ⟨fun hp => ?_, fun _ => ?_⟩
          · rw [← h2] at hp; simp at hp
          · rw [← h1]
            simp only [live, children_mk, value_mk]
            rw [assocPut_isEmpty]
            simp [liveList_assocPut _ _ _ h hl']
        | true =>
          simp only at hd
          split at hd
          · simp at hd
          · split at hd
            · rename_i hemp
              split at hd
              · injection hd with h1 h2
                rename_i hval
                refine ⟨fun hp => ?_, fun _ => ?_⟩
                · rw [← h2] at hp; simp at hp
                · rw [← h1]
                  simp [live, liveList, hval]
              · injection hd with h1 h2
                refine ⟨fun _ => h1.symm, fun hp => ?_⟩
                rw [← h2] at hp
                simp at hp
            · rename_i hemp
              injection hd with h1 h2
              refine ⟨fun hp => ?_, fun _ => ?_⟩
              · rw [← h2] at hp; simp at hp
              · rw [← h1]
                simp only [live, children_mk, value_mk]
                rw [Bool.and_eq_true]
                constructor
                · simp only [Bool.or_eq_true, Bool.not_eq_eq_eq_not, Bool.not_true]
                  right
                  simpa using hemp
                · exact liveList_assocDel _ r h

theorem I1_Delete (t : RuneTrie V) (k : List Nat) (b : Bool) (t' : RuneTrie V)
    (h : I1 t = true) (hd : Delete t k = some (b, t')) : I1 t' = true := by
  unfold Delete at hd
  cases hdl : del t k with
  | notFound =>
    rw [hdl] at hd
    simp only [Option.some.injEq, Prod.mk.injEq] at hd
    rw [← hd.2]
    exact h
  | crashed => rw [hdl] at hd; simp at hd
  | updated t'' p =>
    rw [hdl] at hd
    simp only [Option.some.injEq, Prod.mk.injEq] at hd
    rw [← hd.2]
    have hl := del_live k t t'' p h hdl
    cases p with
    | true =>
      rw [hl.1 rfl]
      simp [I1, liveList]
    | false =>
      have := live_children _ (hl.2 rfl)
      simpa [I1] using this

/-! ### Lemmas about the stored entries and the traversals -/

theorem nodupB_iff (l : List Nat) : nodupB l = true ↔ l.Nodup := by
  induction l with
  | nil => simp [nodupB]
  | cons x xs ih => simp [nodupB, List.nodup_cons, ih]

theorem wfList_mem :
    ∀ (cs : List (Nat × RuneTrie V)) (p : Nat × RuneTrie V),
      wfList cs = true → p ∈ cs → wf p.2 = true := by
  intro cs
  induction cs with
  | nil => intro p _ hp; simp at hp
  | cons hd tl ih =>
    intro p hw hp
    obtain ⟨a, b⟩ := hd
    simp only [wfList, Bool.and_eq_true] at hw
    rcases List.mem_cons.mp hp with h | h
    · rw [h]; exact hw.1
    · exact ih p hw.2 h

theorem wf_children_nodup (v : Option V) (cs : List (Nat × RuneTrie V))
    (h : wf (.mk v cs) = true) : (cs.map Prod.fst).Nodup ∧ wfList cs = true := by
  simp only [wf, Bool.and_eq_true] at h
  exact ⟨(nodupB_iff _).mp h.1, h.2⟩

theorem entriesList_key_shape :
    ∀ (cs : List (Nat × RuneTrie V)) (k : List Nat) (x : V),
      (k, x) ∈ entriesList cs →
      ∃ r k', k = r :: k' ∧ r ∈ cs.map Prod.fst ∧
        ∃ c, (r, c) ∈ cs ∧ (k', x) ∈ entries c := by
  intro cs
  induction cs with
  | nil => intro k x h; simp [entriesList] at h
  | cons hd tl ih =>
    intro k x h
    obtain ⟨r0, c0⟩ := hd
    simp only [entriesList, List.mem_append] at h
    rcases h with h | h
    · rw [List.mem_map] at h
      obtain ⟨⟨k1, x1⟩, hp, he⟩ := h
      simp only [Prod.mk.injEq] at he
      rw [he.2] at hp
      exact ⟨r0, k1, he.1.symm, by simp, c0, by simp, hp⟩
    · obtain ⟨r, k', hk, hmem, c, hc, hm⟩ := ih k x h
      exact ⟨r, k', hk, by simp [hmem], c, by simp [hc], hm⟩

theorem entriesList_keys_nodup :
    ∀ (cs : List (Nat × RuneTrie V)),
      (cs.map Prod.fst).Nodup → wfList cs = true →
      (∀ p ∈ cs, ((entries p.2).map Prod.fst).Nodup) →
      ((entriesList cs).map Prod.fst).Nodup := by
  intro cs
  induction cs with
  | nil => intro _ _ _; simp [entriesList]
  | cons hd tl ih =>
    intro hn hw hmem
    obtain ⟨r0, c0⟩ := hd
    simp only [List.map_cons, List.nodup_cons] at hn
    simp only [wfList, Bool.and_eq_true] at hw
    simp only [entriesList, List.map_append, List.map_map]
    rw [List.nodup_append]
    refine ⟨?_, ih hn.2 hw.2 (fun p hp => hmem p (List.mem_cons_of_mem _ hp)), ?_⟩
    · have h0 := hmem (r0, c0) (List.mem_cons_self _ _)
      have hcomp : (Prod.fst ∘ fun p : List Nat × V => (r0 :: p.1, p.2)) =
          (fun l => r0 :: l) ∘ Prod.fst := by
        funext p; rfl
      rw [hcomp, ← List.map_map]
      exact List.Nodup.map (fun a b hab => by injection hab) h0
    · intro a ha hb
      rw [List.mem_map] at ha hb
      obtain ⟨p1, hp1, ha1⟩ := ha
      obtain ⟨p2, hp2, hb1⟩ := hb
      obtain ⟨r, k', hk, hrm, _⟩ := entriesList_key_shape tl p2.1 p2.2 hp2
      simp only [Function.comp] at ha1
      have hak : p2.1 = r0 :: p1.1 := by rw [hb1, ← ha1]
      rw [hak] at hk
      injection hk with h1 _
      exact hn.1 (h1 ▸ hrm)

theorem entries_keys_nodup :
    ∀ (t : RuneTrie V), wf t = true → ((entries t).map Prod.fst).Nodup := by
  intro t
  induction t using ind_on with
  | h v cs ih =>
    intro hwf
    obtain ⟨hn, hw⟩ := wf_children_nodup v cs hwf
    have hlist := entriesList_keys_nodup cs hn hw
      (fun p hp => ih p hp (wfList_mem cs p hw hp))
    cases v with
    | none => simpa [entries] using hlist
    | some x =>
      simp only [entries, List.singleton_append, List.map_cons, List.nodup_cons]
      refine ⟨?_, hlist⟩
      intro hmem
      rw [List.mem_map] at hmem
      obtain ⟨p, hp, he⟩ := hmem
      obtain ⟨r, k', hk, _⟩ := entriesList_key_shape cs p.1 p.2 hp
      rw [he] at hk
      simp at hk

theorem entriesList_mem_iff :
    ∀ (cs : List (Nat × RuneTrie V)),
      (cs.map Prod.fst).Nodup →
      (∀ p ∈ cs, ∀ (k : List Nat) (x : V), ((k, x) ∈ entries p.2 ↔ Get p.2 k = some x)) →
      ∀ (a : Nat) (as : List Nat) (x : V),
        ((a :: as, x) ∈ entriesList cs ↔
          (match assocGet cs a with
           | none => (none : Option V)
           | some c => Get c as) = some x) := by
  intro cs
  induction cs with
  | nil => intro _ _ a as x; simp [entriesList, assocGet]
  | cons hd tl ih =>
    intro hn hmem a as x
    obtain ⟨r0, c0⟩ := hd
    simp only [List.map_cons, List.nodup_cons] at hn
    have ihtl := ih hn.2 (fun p hp => hmem p (List.mem_cons_of_mem _ hp))
    by_cases ha : r0 = a
    · subst ha
      simp only [entriesList, List.mem_append, List.mem_map, assocGet, if_pos rfl]
      constructor
      · rintro (⟨⟨k1, x1⟩, hp, he⟩ | h)
        · simp only [Prod.mk.injEq] at he
          have hk1 : k1 = as := by
            have := he.1
            injection this
          rw [hk1, he.2] at hp
          exact (hmem (r0, c0) (List.mem_cons_self _ _) as x).mp hp
        · obtain ⟨r, k', hk, hrm, _⟩ := entriesList_key_shape tl _ _ h
          injection hk with h1 _
          exact absurd (h1 ▸ hrm) hn.1
      · intro hg
        left
        exact ⟨(as, x), (hmem (r0, c0) (List.mem_cons_self _ _) as x).mpr hg, rfl⟩
    · simp only [entriesList, List.mem_append, List.mem_map, assocGet, if_neg ha]
      rw [← ihtl a as x]
      constructor
      · rintro (⟨⟨k1, x1⟩, hp, he⟩ | h)
        · simp only [Prod.mk.injEq] at he
          have : r0 = a := by
            have := he.1
            injection this
          exact absurd this ha
        · exact h
      · intro h; right; exact h

theorem mem_entries_iff_Get :
    ∀ (t : RuneTrie V), wf t = true → ∀ (k : List Nat) (x : V),
      ((k, x) ∈ entries t ↔ Get t k = some x) := by
  intro t
  induction t using ind_on with
  | h v cs ih =>
    intro hwf k x
    obtain ⟨hn, hw⟩ := wf_children_nodup v cs hwf
    have hmem : ∀ p ∈ cs, ∀ (k : List Nat) (x : V),
        ((k, x) ∈ entries p.2 ↔ Get p.2 k = some x) :=
      fun p hp => ih p hp (wfList_mem cs p hw hp)
    cases k with
    | nil =>
      simp only [entries, List.mem_append]
      constructor
      · rintro (h | h)
        · cases v with
          | none => simp at h
          | some y =>
            simp only [List.mem_singleton, Prod.mk.injEq] at h
            rw [← h.2]
            rfl
        · obtain ⟨r, k', hk, _⟩ := entriesList_key_shape cs _ _ h
          simp at hk
      · intro hg
        left
        cases v with
        | none => simp [Get] at hg
        | some y =>
          have : some y = some x := hg
          injection this with hyx
          simp [hyx]
    | cons a as =>
      have hlist := entriesList_mem_iff cs hn hmem a as x
      simp only [entries, List.mem_append]
      constructor
      · rintro (h | h)
        · cases v with
          | none => simp at h
          | some y =>
            simp only [List.mem_singleton, Prod.mk.injEq] at h
            exact absurd h.1 (by simp)
        · exact hlist.mp h
      · intro hg
        right
        apply hlist.mpr
        simpa [Get] using hg

theorem walkVisits_eq :
    ∀ (t : RuneTrie V) (key : List Nat),
      walkVisits t key = (entries t).map (fun p => (key ++ encodeKey p.1, p.2)) := by
  intro t
  induction t using ind_on with
  | h v cs ih =>
    intro key
    have hlist : ∀ (ds : List (Nat × RuneTrie V)),
        (∀ p ∈ ds, ∀ (k2 : List Nat), walkVisits p.2 k2 =
          (entries p.2).map (fun q => (k2 ++ encodeKey q.1, q.2))) →
        walkVisitsList ds key = (entriesList ds).map (fun q => (key ++ encodeKey q.1, q.2)) := by
      intro ds
      induction ds with
      | nil => intro _; simp [walkVisitsList, entriesList]
      | cons hd tl ihl =>
        intro hm
        obtain ⟨r, c⟩ := hd
        have h1 := hm (r, c) (List.mem_cons_self _ _) (key ++ encodeRune r)
        have h2 := ihl (fun p hp k2 => hm p (List.mem_cons_of_mem _ hp) k2)
        simp only [walkVisitsList, entriesList, List.map_append, List.map_map]
        rw [h1, h2]
        simp [Function.comp, encodeKey, List.append_assoc]
    cases v with
    | none => simpa [walkVisits, entries] using hlist cs ih
    | some x =>
      simp only [walkVisits, entries, List.singleton_append, List.map_cons,
        encodeKey, List.append_nil]
      rw [hlist cs ih]

theorem walk_eq_findSome {E : Type} :
    ∀ (t : RuneTrie V) (key : List Nat) (f : List Nat → V → Option E),
      walk t key f = (walkVisits t key).findSome? (fun q => f q.1 q.2) := by
  intro t
  induction t using ind_on with
  | h v cs ih =>
    intro key f
    have hlist : ∀ (ds : List (Nat × RuneTrie V)),
        (∀ p ∈ ds, ∀ (k2 : List Nat) (f2 : List Nat → V → Option E),
          walk p.2 k2 f2 = (walkVisits p.2 k2).findSome? (fun q => f2 q.1 q.2)) →
        walkList ds key f = (walkVisitsList ds key).findSome? (fun q => f q.1 q.2) := by
      intro ds
      induction ds with
      | nil => intro _; simp [walkList, walkVisitsList]
      | cons hd tl ihl =>
        intro hm
        obtain ⟨r, c⟩ := hd
        have h1 := hm (r, c) (List.mem_cons_self _ _) (key ++ encodeRune r) f
        have h2 := ihl (fun p hp => hm p (List.mem_cons_of_mem _ hp))
        simp only [walkList, walkVisitsList, List.findSome?_append]
        rw [h1]
        cases hfs : (walkVisits c (key ++ encodeRune r)).findSome? (fun q => f q.1 q.2) with
        | none => simpa using h2
        | some e => simp
    cases v with
    | none => simpa [walk, walkVisits] using hlist cs ih
    | some x =>
      simp only [walk, walkVisits, List.singleton_append, List.findSome?_cons]
      cases hf : f key x with
      | none => simpa using hlist cs ih
      | some e => simp

theorem walkPathAux_eq {E : Type} :
    ∀ (ks : List Nat) (t : RuneTrie V) (bytes : List Nat) (pos : Nat)
      (f : List Nat → V → Option E),
      walkPathAux t bytes pos ks f =
        (walkPathVisitsAux t bytes pos ks).findSome? (fun q => f q.1 q.2) := by
  intro ks
  induction ks with
  | nil => intro t bytes pos f; simp [walkPathAux, walkPathVisitsAux]
  | cons r rs ih =>
    intro t bytes pos f
    cases hg : assocGet t.children r with
    | none => simp [walkPathAux, walkPathVisitsAux, hg]
    | some child =>
      cases hv : child.value with
      | none => simp [walkPathAux, walkPathVisitsAux, hg, hv, ih]
      | some x =>
        simp only [walkPathAux, walkPathVisitsAux, hg, hv, List.findSome?_cons]
        cases hf : f (bytes.take (pos + 1)) x <;> simp [hf, ih]

theorem WalkPath_eq_findSome {E : Type} (t : RuneTrie V) (k : List Nat)
    (f : List Nat → V → Option E) :
    WalkPath t k f = (walkPathVisits t k).findSome? (fun q => f q.1 q.2) := by
  cases hv : t.value with
  | none => simp [WalkPath, walkPathVisits, hv, walkPathAux_eq]
  | some x =>
    simp only [WalkPath, walkPathVisits, hv, List.singleton_append, List.findSome?_cons]
    cases hf : f [] x <;> simp [hf, walkPathAux_eq]

/-! ### Claims -/

/-- Claim C1, amended: invariant I1 (no childless, valueless, non-root node)
is preserved by `Put` with a non-nil value and by every `Delete` call that
returns; `Put` with the nil value can violate it (see the counterexample),
and `Get`, `Walk`, `WalkPath` do not mutate the tree at all. -/
theorem claim_C1 (t : RuneTrie V) (k : List Nat) (v : V) (h : I1 t = true) :
    I1 (Put t k (some v)).2 = true ∧
      ∀ (b : Bool) (t' : RuneTrie V), Delete t k = some (b, t') → I1 t' = true :=
  ⟨I1_Put v t k h, fun b t' hd => I1_Delete t k b t' h hd⟩

/-- Claim C1, counterexample: after `Put("a", nil)` on an empty trie the node
for "a" is childless, valueless and non-root, so I1 fails after a public
operation, refuting the claim for the nil value. -/
theorem claim_C1_counterexample :
    I1 ((Put (NewRuneTrie : RuneTrie Nat) [97] none).2) = false := rfl

/-- Claim C1, witness: the preservation theorem applied to concrete states —
a Put of 1 at "a" into the empty trie, and the Delete of "a" afterwards. -/
theorem claim_C1_witness :
    I1 ((Put (NewRuneTrie : RuneTrie Nat) [97] (some 1)).2) = true ∧
      I1 (RuneTrie.mk (none : Option Nat) []) = true :=
  ⟨(claim_C1 NewRuneTrie [97] 1 rfl).1,
   (claim_C1 (Put (NewRuneTrie : RuneTrie Nat) [97] (some 1)).2 [97] 1 rfl).2
     true (.mk none []) rfl⟩

/-- Claim C2, code bug: `Delete` on the key "é" (codepoint 233, two UTF-8
bytes) of a trie containing "é" panics with a nil dereference — the ancestor
array is sized in bytes but filled at rune indices, and the pruning loop
walks the zero-valued holes — so Get/Put/Delete are not panic-free on all
keys; on keys of one-byte runes `Delete` always completes. -/
theorem claim_C2 :
    Delete ((Put (NewRuneTrie : RuneTrie Nat) [233] (some 1)).2) [233] = none ∧
      ∀ (W : Type) (t : RuneTrie W) (k : List Nat),
        (∀ r ∈ k, utf8Len r = 1) → Delete t k ≠ none := by
  constructor
  · rfl
  · intro W t k hk
    unfold Delete
    cases hd : del t k with
    | notFound => simp
    | crashed => exact absurd hd (del_ascii_ne_crashed k t hk)
    | updated t' p => simp

/-- Claim C2, witness: the no-panic part applied at the empty trie and the
one-byte key "a". -/
theorem claim_C2_witness : Delete (NewRuneTrie : RuneTrie Nat) [97] ≠ none :=
  claim_C2.2 Nat NewRuneTrie [97] (by decide)

/-- Claim C3, amended: `Put` returns true exactly when the key was previously
valueless (`Get` nil, whether because the path was absent or because the node
held nil); after a `Put` of a non-nil value every subsequent `Put` to that key
returns false; a `Put` storing nil leaves the key valueless, so the next
`Put` returns true again without any intervening Delete (see the
counterexample). -/
theorem claim_C3 (t : RuneTrie V) (k : List Nat) :
    (∀ (v : Option V), (Put t k v).1 = (Get t k).isNone) ∧
      ∀ (v : V) (w : Option V), (Put (Put t k (some v)).2 k w).1 = false := by
  refine ⟨fun v => Put_fst v k t, fun v w => ?_⟩
  rw [Put_fst w k, Get_Put_self (some v) k t]
  rfl

/-- Claim C3, counterexample: `Put("a", nil)` then `Put("a", 5)` — the second
Put to the same key returns true although the key was never deleted, refuting
"every subsequent Put to that same key returns false until the key is
deleted". -/
theorem claim_C3_counterexample :
    (Put ((Put (NewRuneTrie : RuneTrie Nat) [97] none).2) [97] (some 5)).1 = true := rfl

/-- Claim C5: immediately after `Put(k, v)`, `Get(k)` returns `v` — for every
tree state, every key (including the empty key, which targets the root) and
every value, the nil value included. -/
theorem claim_C5 (t : RuneTrie V) (k : List Nat) (v : Option V) :
    Get (Put t k v).2 k = v := Get_Put_self v k t

/-- Claim C4, code bug: on the trie containing "é" ↦ 1, `WalkPath("é", f)`
invokes the visitor with the byte string `key[0:1] = [0xC3]` — the first byte
of the two-byte encoding of "é" — instead of the full accumulated prefix
`[0xC3, 0xA9]`, because the loop slices `key[0:i+1]` at the rune's start
byte index rather than its end. -/
theorem claim_C4 :
    walkPathVisits ((Put (NewRuneTrie : RuneTrie Nat) [233] (some 1)).2) [233] =
        [([195], 1)] ∧
      encodeKey [233] = [195, 169] := ⟨rfl, rfl⟩

/-- Claim C6, code bug: whenever `Delete(k)` returns, a following `Get(k)`
yields nil; but on the trie containing "éa" ↦ 2 the call `Delete("éa")`
panics in the pruning loop instead of returning, so "Delete followed by Get"
does not hold for every key and prior state. -/
theorem claim_C6 :
    (∀ (W : Type) (t : RuneTrie W) (k : List Nat) (b : Bool) (t' : RuneTrie W),
        Delete t k = some (b, t') → Get t' k = none) ∧
      Delete ((Put (NewRuneTrie : RuneTrie Nat) [233, 97] (some 2)).2) [233, 97] = none := by
  constructor
  · intro W t k b t' hd
    unfold Delete at hd
    cases hdl : del t k with
    | notFound =>
      rw [hdl] at hd
      simp only [Option.some.injEq, Prod.mk.injEq] at hd
      rw [← hd.2]
      exact Get_of_del_notFound k t hdl
    | crashed => rw [hdl] at hd; simp at hd
    | updated t'' p =>
      rw [hdl] at hd
      simp only [Option.some.injEq, Prod.mk.injEq] at hd
      rw [← hd.2]
      exact Get_of_del_updated k t t'' p hdl
  · rfl

/-- Claim C6, witness: the conditional part applied to the completed deletion
of "a" from the trie holding "a" ↦ 1. -/
theorem claim_C6_witness : Get (RuneTrie.mk (none : Option Nat) []) [97] = none :=
  claim_C6.1 Nat ((Put (NewRuneTrie : RuneTrie Nat) [97] (some 1)).2) [97] true
    (.mk none []) rfl

/-- Claim C7, code bug: whenever `Delete(k)` returns, it returns false iff no
node is reachable via k's rune path and a false return leaves the trie
unmutated; but on the trie containing "aé" ↦ 5 the node for "aé" is reachable
and `Delete("aé")` panics instead of returning true. -/
theorem claim_C7 :
    (∀ (W : Type) (t : RuneTrie W) (k : List Nat) (b : Bool) (t' : RuneTrie W),
        Delete t k = some (b, t') →
          ((b = false ↔ hasNode t k = false) ∧ (b = false → t' = t))) ∧
      hasNode ((Put (NewRuneTrie : RuneTrie Nat) [97, 233] (some 5)).2) [97, 233] = true ∧
      Delete ((Put (NewRuneTrie : RuneTrie Nat) [97, 233] (some 5)).2) [97, 233] = none := by
  refine ⟨?_, rfl, rfl⟩
  intro W t k b t' hd
  unfold Delete at hd
  cases hdl : del t k with
  | notFound =>
    rw [hdl] at hd
    simp only [Option.some.injEq, Prod.mk.injEq] at hd
    have hhn : hasNode t k = false := by
      cases hc : hasNode t k with
      | false => rfl
      | true => exact absurd hdl (del_ne_notFound_of_hasNode k t hc)
    exact ⟨⟨fun _ => hhn, fun _ => hd.1.symm⟩, fun _ => hd.2.symm⟩
  | crashed => rw [hdl] at hd; simp at hd
  | updated t'' p =>
    rw [hdl] at hd
    simp only [Option.some.injEq, Prod.mk.injEq] at hd
    constructor
    · constructor
      · intro hb
        rw [← hd.1] at hb
        simp at hb
      · intro hf
        have hnf := del_of_hasNode_false k t hf
        rw [hdl] at hnf
        exact absurd hnf (by simp)
    · intro hb
      rw [← hd.1] at hb
      simp at hb

/-- Claim C7, witness: the conditional part applied to deleting the absent
key "a" from the empty trie, which returns false and leaves it unchanged. -/
theorem claim_C7_witness :
    ((false = false) ↔ hasNode (NewRuneTrie : RuneTrie Nat) [97] = false) ∧
      ((false = false) → (NewRuneTrie : RuneTrie Nat) = NewRuneTrie) :=
  claim_C7.1 Nat NewRuneTrie [97] false NewRuneTrie rfl

/-- Claim C8: on a well-formed trie, `Walk`'s visit sequence is exactly the
stored entries — each value-holding node once, with the byte string of its
accumulated rune path and its value, the root first when it holds a value —
where the stored entries are characterised by `Get` and have pairwise
distinct keys. -/
theorem claim_C8 (t : RuneTrie V) (h : wf t = true) :
    walkVisits t [] = (entries t).map (fun p => (encodeKey p.1, p.2)) ∧
      ((entries t).map Prod.fst).Nodup ∧
      (∀ (k : List Nat) (x : V), ((k, x) ∈ entries t ↔ Get t k = some x)) ∧
      ∀ (x : V), t.value = some x → (walkVisits t []).head? = some ([], x) := by
  refine ⟨?_, entries_keys_nodup t h, mem_entries_iff_Get t h, ?_⟩
  · simpa using walkVisits_eq t []
  · intro x hv
    cases t with
    | mk v cs =>
      simp only [value_mk] at hv
      subst hv
      simp [walkVisits]

/-- Claim C8, witness: the visit-sequence equation at the concrete trie
holding a ↦ 1, ab ↦ 2, b ↦ 3. -/
theorem claim_C8_witness :
    walkVisits sampleTrie [] = (entries sampleTrie).map (fun p => (encodeKey p.1, p.2)) :=
  (claim_C8 sampleTrie rfl).1

/-- Claim C9: `Walk` and `WalkPath` return exactly the first error their
visit sequence produces — the visitor's error value unmodified, with no
visit after it influencing the result — and the nil error when the visitor
never errs. -/
theorem claim_C9 {E : Type} (t : RuneTrie V) (k : List Nat)
    (f : List Nat → V → Option E) :
    Walk t f = (walkVisits t []).findSome? (fun q => f q.1 q.2) ∧
      WalkPath t k f = (walkPathVisits t k).findSome? (fun q => f q.1 q.2) :=
  ⟨walk_eq_findSome t [] f, WalkPath_eq_findSome t k f⟩

/-- Claim C10: `Put` is frame-preserving — a Put at key k never changes the
value `Get` observes at any other key. -/
theorem claim_C10 (t : RuneTrie V) (k k' : List Nat) (v : Option V)
    (h : k' ≠ k) : Get (Put t k v).2 k' = Get t k' :=
  Get_Put_ne v k k' t h

/-- Claim C10, witness: putting at "a" leaves `Get("b")` unchanged on the
empty trie. -/
theorem claim_C10_witness :
    Get ((Put (NewRuneTrie : RuneTrie Nat) [97] (some 1)).2) [98] =
      Get (NewRuneTrie : RuneTrie Nat) [98] :=
  claim_C10 NewRuneTrie [97] [98] (some 1) (by decide)

end RuneTrie

end Spec2Proof
